import Mathlib

/-!
Verification of the `use-model` validation core.

The development shallowly embeds the two source functions:
  * `normalizeValue` (src/unnamed/part_000): converts a raw JS value into a
    tagged `{ type, value }` pair;
  * `validate` (src/lib/validate-data.ts): runs every rule declared for each
    field on that field's normalized value and aggregates failures.

JS values are modelled by the inductive `Value`, covering the runtime
categories the normalizer dispatches on (string / number / boolean /
null / undefined / array / File instance / other object).  JS numbers are
modelled by `JsNum`: NaN, the two infinities, and finite values (finite
doubles are a subset of the rationals).  JS objects used as string-keyed
maps (`data`, `rules`, `errors`) are modelled by association lists in
insertion order, which matches JS own-property enumeration order for
string keys; property assignment that may overwrite is `setErr`.  Code
that can raise a JS exception is embedded in `Except JsError`.
-/

namespace UseModel

/-- JS numbers: NaN, infinities, and finite values (modelled in ℚ). -/
inductive JsNum where
  | nan
  | inf
  | negInf
  | finite (q : Rat)
deriving DecidableEq

/-- Runtime categories of raw JS values relevant to the normalizer. -/
inductive Value where
  | str (s : String)
  | num (x : JsNum)
  | boolean (b : Bool)
  | null
  | undefValue
  | arr (xs : List Value)
  | file
  | obj

/-- The result shape of `normalizeValue`: `{ type, value }`. -/
structure NormalizedValue where
  type : String
  value : Value

/-- JS `typeof` on the modelled values (`typeof null` is `"object"`,
arrays and File instances are `"object"`). -/
def typeofValue : Value → String
  | .str _ => "string"
  | .num _ => "number"
  | .boolean _ => "boolean"
  | .null => "object"
  | .undefValue => "undefined"
  | .arr _ => "object"
  | .file => "object"
  | .obj => "object"

/-- Characters removed by JS `String.prototype.trim` (whitespace). -/
def isJsWhitespace (c : Char) : Bool := c.isWhitespace

/-- Remove leading and trailing whitespace characters from a character list. -/
def trimList (l : List Char) : List Char :=
  ((l.dropWhile isJsWhitespace).reverse.dropWhile isJsWhitespace).reverse

/-- JS `String.prototype.trim`: strip leading and trailing whitespace. -/
def jsTrim (s : String) : String := ⟨trimList s.data⟩

/-- JS `parseFloat` applied to a value that is already a number: the number
is converted to its string form and parsed back.  By the ECMAScript
round-trip property (ToString produces a string that parses back to the
same number; `"NaN"` parses to NaN and `"Infinity"` to Infinity), this is
the identity on every JS number. -/
def parseFloatOfNum (x : JsNum) : JsNum := x

/-- `value.trim()` as used in the `"string"` branch (the `typeof` guard
ensures the value is a string there; other constructors are unreachable). -/
def trimValue : Value → Value
  | .str s => .str (jsTrim s)
  | v => v

/-- `parseFloat(value)` as used in the `"number"` branch (the `typeof` guard
ensures the value is a number there; other constructors are unreachable). -/
def parseFloatValue : Value → Value
  | .num x => .num (parseFloatOfNum x)
  | v => v

/-- JS `Array.isArray(value)`. -/
def isArrayV : Value → Bool
  | .arr _ => true
  | _ => false

/-- JS `value instanceof File`. -/
def instanceofFile : Value → Bool
  | .file => true
  | _ => false

/-- JS `[undefined, null].indexOf(value) > -1`. -/
def isNullishV : Value → Bool
  | .null => true
  | .undefValue => true
  | _ => false

/-- Shallow embedding of `normalizeValue` (src/unnamed/part_000).  The
`browser` flag models the module's `mode` detection ("browser" vs "node"),
which only gates the `instanceof File` check. -/
def normalizeValue (browser : Bool) (value : Value) : NormalizedValue :=
  let type := typeofValue value
  let normal := value
  if type = "string" then
    { type := type, value := trimValue normal }
  else if type = "number" then
    { type := type, value := parseFloatValue normal }
  else
    let type1 := if isArrayV value then "array" else type
    let type2 := if browser && instanceofFile value then "file" else type1
    if isNullishV value then
      { type := "nullish", value := Value.null }
    else
      { type := type2, value := normal }

/-- Decides whether a raw value is of string or number runtime category. -/
def isStringOrNumber : Value → Bool
  | .str _ => true
  | .num _ => true
  | _ => false

/-- A rule evaluator: `normalizedValue -> { pass, message }`. -/
structure RuleResult where
  pass : Bool
  message : String

/-- The type of rule evaluators stored in a rule-set. -/
abbrev Rule : Type := NormalizedValue → RuleResult

/-- The result of `validate`: `{ errors, valid }` with `errors` a
string-keyed map (association list in insertion order). -/
structure ValidationResult where
  errors : List (String × String)
  valid : Bool

/-- JS `data[field]`: property lookup on the data object, `undefined` when
the key is absent. -/
def dataLookup (data : List (String × Value)) (field : String) : Value :=
  match data.find? (fun p => p.1 == field) with
  | some p => p.2
  | none => .undefValue

/-- JS `errors[field] = msg`: overwrite the entry when the key exists
(keeping its position, as JS objects do), otherwise append it. -/
def setErr (errors : List (String × String)) (field msg : String) :
    List (String × String) :=
  if errors.any (fun p => p.1 == field) then
    errors.map (fun p => if p.1 == field then (field, msg) else p)
  else
    errors ++ [(field, msg)]

/-- Lookup in the errors map, `none` when the field has no recorded error. -/
def lookupErr (errors : List (String × String)) (field : String) :
    Option String :=
  (errors.find? (fun p => p.1 == field)).map Prod.snd

/-- Embedding of the `rules[field].forEach((rule) => ...)` loop body of
`validate` (src/lib/validate-data.ts): run each rule on the normalized
value; on failure set `valid = false` and overwrite the field's error. -/
def runRules (nv : NormalizedValue) (field : String) :
    List Rule → ValidationResult → ValidationResult
  | [], v => v
  | rule :: rest, v =>
    let result := rule nv
    runRules nv field rest
      (if !result.pass then
        { valid := false, errors := setErr v.errors field result.message }
       else v)

/-- Embedding of the `for (const field in rules)` loop of `validate`:
normalize `data[field]`, then run that field's rules. -/
def validateGo (browser : Bool) (data : List (String × Value)) :
    List (String × List Rule) → ValidationResult → ValidationResult
  | [], v => v
  | (field, rs) :: rest, v =>
    let normalizedValue := normalizeValue browser (dataLookup data field)
    validateGo browser data rest (runRules normalizedValue field rs v)

/-- Shallow embedding of `validate` (src/lib/validate-data.ts). -/
def validate (browser : Bool) (data : List (String × Value))
    (rules : List (String × List Rule)) : ValidationResult :=
  validateGo browser data rules { errors := [], valid := true }

/-- A call of `validate` with the `rules` argument omitted: the TS default
parameter `rules = {}` supplies the empty rule-set. -/
def validateNoRules (browser : Bool) (data : List (String × Value)) :
    ValidationResult :=
  validate browser data []

/-- Specification-side definition (follows the spec's words, to be compared
with the embedded validator): the message of the last failing rule in
declaration order, if any rule fails. -/
def specLastFailingMessage (nv : NormalizedValue) : List Rule → Option String
  | [] => none
  | rule :: rest =>
    match specLastFailingMessage nv rest with
    | some m => some m
    | none => if (rule nv).pass then none else some (rule nv).message

/-- JS exceptions that validation code can raise. -/
inductive JsError where
  | ruleNotFound (name : String)
  | thrown (msg : String)

/-- A rule evaluator that may throw a JS exception. -/
abbrev RuleE : Type := NormalizedValue → Except JsError RuleResult

/-- Whether an `Except` computation ended in an error. -/
def isError {ε α : Type} : Except ε α → Bool
  | .error _ => true
  | .ok _ => false

/-- The `forEach` loop of `validate` with exception-aware rule evaluators:
the source has no try/catch, so a thrown exception aborts the loop and
propagates. -/
def runRulesE (nv : NormalizedValue) (field : String) :
    List RuleE → ValidationResult → Except JsError ValidationResult
  | [], v => .ok v
  | rule :: rest, v =>
    match rule nv with
    | .error e => .error e
    | .ok result =>
      runRulesE nv field rest
        (if !result.pass then
          { valid := false, errors := setErr v.errors field result.message }
         else v)

/-- The field loop of `validate` with exception-aware rule evaluators. -/
def validateEGo (browser : Bool) (data : List (String × Value)) :
    List (String × List RuleE) → ValidationResult →
      Except JsError ValidationResult
  | [], v => .ok v
  | (field, rs) :: rest, v =>
    match runRulesE (normalizeValue browser (dataLookup data field))
        field rs v with
    | .error e => .error e
    | .ok v1 => validateEGo browser data rest v1

/-- `validate` with exception-aware rule evaluators: no exception handler
anywhere in the source, so any thrown exception reaches the caller. -/
def validateE (browser : Bool) (data : List (String × Value))
    (rules : List (String × List RuleE)) : Except JsError ValidationResult :=
  validateEGo browser data rules { errors := [], valid := true }

/-- Modelled from the spec: a rule factory, taking a message and producing
an evaluator (the registry maps rule names to factories; the repository's
registry module is not under src/, only `validate` and the normalizer
are). -/
abbrev Factory : Type := String → Rule

/-- Modelled from the spec: registry lookup `get(name)` fails with
`RuleNotFound` when the requested rule name is absent from the registry,
surfaced at the point the rule is invoked. -/
def registryGet (registry : List (String × Factory)) (name : String) :
    Except JsError Factory :=
  match registry.find? (fun p => p.1 == name) with
  | some p => .ok p.2
  | none => .error (.ruleNotFound name)

/-- Modelled from the spec: run a field's rules referenced by name —
each (name, message) pair is resolved through the registry at invocation
time, raising `RuleNotFound` for an unregistered name rather than
silently skipping the rule. -/
def runNamedRules (registry : List (String × Factory)) (nv : NormalizedValue)
    (field : String) : List (String × String) → ValidationResult →
      Except JsError ValidationResult
  | [], v => .ok v
  | (name, msg) :: rest, v =>
    match registryGet registry name with
    | .error e => .error e
    | .ok factory =>
      let result := factory msg nv
      runNamedRules registry nv field rest
        (if !result.pass then
          { valid := false, errors := setErr v.errors field result.message }
         else v)

/-- Modelled from the spec: the field loop of validation with rules
referenced by registry name. -/
def validateNamedGo (registry : List (String × Factory)) (browser : Bool)
    (data : List (String × Value)) :
    List (String × List (String × String)) → ValidationResult →
      Except JsError ValidationResult
  | [], v => .ok v
  | (field, nrs) :: rest, v =>
    match runNamedRules registry
        (normalizeValue browser (dataLookup data field)) field nrs v with
    | .error e => .error e
    | .ok v1 => validateNamedGo registry browser data rest v1

/-- Modelled from the spec: validation of a rule-set whose rules are
referenced by registry name. -/
def validateNamed (registry : List (String × Factory)) (browser : Bool)
    (data : List (String × Value))
    (rules : List (String × List (String × String))) :
    Except JsError ValidationResult :=
  validateNamedGo registry browser data rules { errors := [], valid := true }

section TrimLemmas

theorem dropWhile_idem (p : Char → Bool) (l : List Char) :
    (l.dropWhile p).dropWhile p = l.dropWhile p := by
  induction l with
  | nil => rfl
  | cons c t ih =>
    cases h : p c with
    | true => simp [List.dropWhile_cons, h, ih]
    | false => simp [List.dropWhile_cons, h]

theorem dropWhile_length_le (p : Char → Bool) (l : List Char) :
    (l.dropWhile p).length ≤ l.length := by
  induction l with
  | nil => simp
  | cons c t ih =>
    cases h : p c with
    | true =>
      rw [List.dropWhile_cons_of_pos h]
      exact Nat.le_succ_of_le ih
    | false => simp [List.dropWhile_cons_of_neg, h]

theorem dropWhile_eq_self_head (p : Char → Bool) (c : Char) (t : List Char)
    (h : (c :: t).dropWhile p = c :: t) : p c = false := by
  cases hc : p c with
  | false => rfl
  | true =>
    rw [List.dropWhile_cons_of_pos hc] at h
    have hlen : (t.dropWhile p).length ≤ t.length := dropWhile_length_le p t
    rw [h] at hlen
    simp at hlen

theorem dropWhile_eq_self_of_append (p : Char → Bool) (a b : List Char)
    (h : (a ++ b).dropWhile p = a ++ b) : a.dropWhile p = a := by
  cases a with
  | nil => rfl
  | cons c t =>
    have hc : p c = false := by
      have := dropWhile_eq_self_head p c (t ++ b) (by simpa using h)
      exact this
    simp [List.dropWhile_cons, hc]

theorem trimList_no_leading (l : List Char) :
    (trimList l).dropWhile isJsWhitespace = trimList l := by
  unfold trimList
  set d1 := l.dropWhile isJsWhitespace with hd1
  set d2 := d1.reverse.dropWhile isJsWhitespace with hd2
  have hsplit : d1.reverse.takeWhile isJsWhitespace ++ d2 = d1.reverse := by
    rw [hd2]; exact List.takeWhile_append_dropWhile isJsWhitespace d1.reverse
  have hd1self : d1.dropWhile isJsWhitespace = d1 := by
    rw [hd1]; exact dropWhile_idem _ l
  have hdecomp :
      d1 = d2.reverse ++ (d1.reverse.takeWhile isJsWhitespace).reverse := by
    have h0 : (d1.reverse.takeWhile isJsWhitespace ++ d2).reverse
        = d1.reverse.reverse := by
      rw [hsplit]
    simpa [List.reverse_append] using h0.symm
  have := dropWhile_eq_self_of_append isJsWhitespace d2.reverse
    ((d1.reverse.takeWhile isJsWhitespace).reverse)
    (by rw [← hdecomp]; exact hd1self)
  exact this

theorem trimList_idem (l : List Char) : trimList (trimList l) = trimList l := by
  have h1 : (trimList l).dropWhile isJsWhitespace = trimList l :=
    trimList_no_leading l
  show ((((trimList l).dropWhile isJsWhitespace).reverse.dropWhile
    isJsWhitespace).reverse) = trimList l
  rw [h1]
  unfold trimList
  rw [List.reverse_reverse, dropWhile_idem]

theorem jsTrim_idem (s : String) : jsTrim (jsTrim s) = jsTrim s := by
  unfold jsTrim
  exact congrArg String.mk (trimList_idem s.data)

end TrimLemmas

/-- Claim C3: for every string input `s`, `normalizeValue` returns the tag
`"string"` and the value `s` with leading and trailing whitespace trimmed. -/
theorem claim3_normalize_string (browser : Bool) (s : String) :
    normalizeValue browser (.str s) = ⟨"string", .str (jsTrim s)⟩ := by
  rfl

/-- Claim C4: absent (`undefined`) and explicit `null` inputs normalize to
tag `"nullish"` with value exactly `null` (never falling through to the
generic `"object"` tag), and for every input whatsoever, a `"nullish"`
result tag comes with value exactly `null`. -/
theorem claim4_nullish_invariant (browser : Bool) (v : Value) :
    ((v = .null ∨ v = .undefValue) → normalizeValue browser v = ⟨"nullish", .null⟩)
    ∧ ((normalizeValue browser v).type = "nullish" →
        (normalizeValue browser v).value = .null) := by
  constructor
  · rintro (rfl | rfl) <;> rfl
  · intro h
    cases v <;> cases browser <;> simp_all [normalizeValue, typeofValue,
      isArrayV, instanceofFile, isNullishV, trimValue, parseFloatValue]

/-- Witness for claim C4 at the concrete inputs `null` (first part) and
`undefined` (second part, whose hypothesis holds there by computation). -/
theorem claim4_nullish_invariant_witness :
    normalizeValue true Value.null = ⟨"nullish", .null⟩
    ∧ (normalizeValue false Value.undefValue).value = .null :=
  ⟨(claim4_nullish_invariant true Value.null).1 (Or.inl rfl),
   (claim4_nullish_invariant false Value.undefValue).2 rfl⟩

/-- Claim C5: every number-typed input normalizes to tag `"number"` with
value `parseFloat` of the value's string form (the identity on JS numbers
by the ECMAScript round-trip property, see `parseFloatOfNum`); the
malformed numeric value NaN stays the NaN sentinel rather than producing
an error — `normalizeValue` returns a `NormalizedValue`, not a failure. -/
theorem claim5_normalize_number (browser : Bool) (x : JsNum) :
    normalizeValue browser (.num x) = ⟨"number", .num (parseFloatOfNum x)⟩
    ∧ normalizeValue browser (.num .nan) = ⟨"number", .num .nan⟩ := by
  exact ⟨rfl, rfl⟩

/-- Claim C6: `normalizeValue` is total and pure — it is a Lean function
defined on every constructor of `Value` (every runtime category), so it
always returns a `NormalizedValue` and never throws; its result tag always
lies in the closed set of tags below, and the malformed numeric input NaN
degrades to the degenerate normalized value `⟨"number", NaN⟩` instead of
failing. -/
theorem claim6_normalize_total (browser : Bool) (v : Value) :
    (normalizeValue browser v).type ∈
      ["string", "number", "boolean", "array", "file", "nullish", "object",
       "undefined"]
    ∧ normalizeValue browser (.num .nan) = ⟨"number", .num .nan⟩ := by
  refine ⟨?_, rfl⟩
  cases v <;> cases browser <;> simp [normalizeValue, typeofValue,
    isArrayV, instanceofFile, isNullishV]

/-- Claim C7: normalization is idempotent on strings and numbers — applying
`normalizeValue` to the value component of a normalized string or number
yields the same tag and value again. -/
theorem claim7_normalize_idempotent (browser : Bool) (v : Value)
    (h : isStringOrNumber v = true) :
    normalizeValue browser (normalizeValue browser v).value
      = normalizeValue browser v := by
  cases v with
  | str s =>
    rw [claim3_normalize_string browser s]
    show normalizeValue browser (.str (jsTrim s)) = _
    rw [claim3_normalize_string browser (jsTrim s), jsTrim_idem]
  | num x => rfl
  | _ => simp [isStringOrNumber] at h

/-- Witness for claim C7 at the concrete string `" a "`. -/
theorem claim7_normalize_idempotent_witness :
    isStringOrNumber (.str " a ") = true
    ∧ normalizeValue true (normalizeValue true (.str " a ")).value
        = normalizeValue true (.str " a ") :=
  ⟨rfl, claim7_normalize_idempotent true (.str " a ") rfl⟩

section ErrMapLemmas

theorem setErr_of_any_true (es : List (String × String)) (f m : String)
    (h : es.any (fun p => p.1 == f) = true) :
    setErr es f m = es.map (fun p => if p.1 == f then (f, m) else p) := by
  unfold setErr; simp [h]

theorem setErr_of_any_false (es : List (String × String)) (f m : String)
    (h : es.any (fun p => p.1 == f) = false) :
    setErr es f m = es ++ [(f, m)] := by
  unfold setErr; simp [h]

theorem anyKey_iff (es : List (String × String)) (f : String) :
    (es.any (fun p => p.1 == f) = true) ↔ f ∈ es.map Prod.fst := by
  simp [List.any_eq_true, List.mem_map]

theorem find_map_replace (f m : String) :
    ∀ es : List (String × String), es.any (fun p => p.1 == f) = true →
    (es.map (fun p => if p.1 == f then (f, m) else p)).find?
      (fun p => p.1 == f) = some (f, m) := by
  intro es
  induction es with
  | nil => intro h; simp at h
  | cons p rest ih =>
    intro h
    cases hp : p.1 == f with
    | true =>
      rw [List.map_cons, if_pos hp]
      exact List.find?_cons_of_pos _ (by simp)
    | false =>
      rw [List.any_cons, hp, Bool.false_or] at h
      rw [List.map_cons, if_neg (by simp [hp]),
        List.find?_cons_of_neg _ (by simp [hp])]
      exact ih h

theorem find_append_single_same (f m : String) :
    ∀ es : List (String × String), es.any (fun p => p.1 == f) = false →
    (es ++ [(f, m)]).find? (fun p => p.1 == f) = some (f, m) := by
  intro es
  induction es with
  | nil =>
    intro _
    rw [List.nil_append]
    exact List.find?_cons_of_pos _ (by simp)
  | cons p rest ih =>
    intro h
    cases hp : p.1 == f with
    | true =>
      rw [List.any_cons, hp, Bool.true_or] at h
      exact Bool.noConfusion h
    | false =>
      rw [List.any_cons, hp, Bool.false_or] at h
      rw [List.cons_append, List.find?_cons_of_neg _ (by simp [hp])]
      exact ih h

theorem find_append_single_other (f m g : String) (hg : (f == g) = false) :
    ∀ es : List (String × String),
    (es ++ [(f, m)]).find? (fun p => p.1 == g)
      = es.find? (fun p => p.1 == g) := by
  intro es
  induction es with
  | nil =>
    rw [List.nil_append, List.find?_cons_of_neg _ (by simp [hg])]
  | cons p rest ih =>
    cases hp : p.1 == g with
    | true =>
      have h1 : List.find? (fun q => q.1 == g) (p :: (rest ++ [(f, m)]))
          = some p := List.find?_cons_of_pos _ hp
      have h2 : List.find? (fun q => q.1 == g) (p :: rest) = some p :=
        List.find?_cons_of_pos _ hp
      rw [List.cons_append, h1, h2]
    | false =>
      rw [List.cons_append, List.find?_cons_of_neg _ (by simp [hp]),
        List.find?_cons_of_neg _ (by simp [hp])]
      exact ih

theorem find_map_replace_other (f m g : String) (hg : (f == g) = false) :
    ∀ es : List (String × String),
    (es.map (fun p => if p.1 == f then (f, m) else p)).find?
        (fun p => p.1 == g)
      = es.find? (fun p => p.1 == g) := by
  intro es
  induction es with
  | nil => rfl
  | cons p rest ih =>
    cases hp : p.1 == f with
    | true =>
      have h1 : p.1 = f := by simpa using hp
      have hpg : (p.1 == g) = false := by rw [h1]; exact hg
      rw [List.map_cons, if_pos hp, List.find?_cons_of_neg _ (by simp [hg]),
        List.find?_cons_of_neg _ (by simp [hpg])]
      exact ih
    | false =>
      cases hpg : p.1 == g with
      | true =>
        have h1 : List.find? (fun q => q.1 == g)
            (p :: (rest.map (fun q => if q.1 == f then (f, m) else q)))
            = some p := List.find?_cons_of_pos _ hpg
        have h2 : List.find? (fun q => q.1 == g) (p :: rest) = some p :=
          List.find?_cons_of_pos _ hpg
        rw [List.map_cons, if_neg (by simp [hp]), h1, h2]
      | false =>
        rw [List.map_cons, if_neg (by simp [hp]),
          List.find?_cons_of_neg _ (by simp [hpg]),
          List.find?_cons_of_neg _ (by simp [hpg])]
        exact ih

theorem lookupErr_setErr_same (es : List (String × String)) (f m : String) :
    lookupErr (setErr es f m) f = some m := by
  cases hany : es.any (fun p => p.1 == f) with
  | true =>
    rw [setErr_of_any_true es f m hany]
    unfold lookupErr
    rw [find_map_replace f m es hany]
    rfl
  | false =>
    rw [setErr_of_any_false es f m hany]
    unfold lookupErr
    rw [find_append_single_same f m es hany]
    rfl

theorem lookupErr_setErr_other (es : List (String × String)) (f m g : String)
    (hg : f ≠ g) : lookupErr (setErr es f m) g = lookupErr es g := by
  have hbeq : (f == g) = false := by
    cases h : f == g with
    | false => rfl
    | true => exact absurd (by simpa using h) hg
  cases hany : es.any (fun p => p.1 == f) with
  | true =>
    rw [setErr_of_any_true es f m hany]
    unfold lookupErr
    rw [find_map_replace_other f m g hbeq es]
  | false =>
    rw [setErr_of_any_false es f m hany]
    unfold lookupErr
    rw [find_append_single_other f m g hbeq es]

theorem keys_map_replace (f m : String) :
    ∀ es : List (String × String),
    (es.map (fun p => if p.1 == f then (f, m) else p)).map Prod.fst
      = es.map Prod.fst := by
  intro es
  induction es with
  | nil => rfl
  | cons p rest ih =>
    cases hp : p.1 == f with
    | true =>
      have h1 : p.1 = f := by simpa using hp
      rw [List.map_cons, if_pos hp, List.map_cons, ih, List.map_cons, h1]
    | false =>
      rw [List.map_cons, if_neg (by simp [hp]), List.map_cons, ih,
        List.map_cons]

theorem nodup_setErr (es : List (String × String)) (f m : String)
    (h : (es.map Prod.fst).Nodup) : ((setErr es f m).map Prod.fst).Nodup := by
  cases hany : es.any (fun p => p.1 == f) with
  | true =>
    rw [setErr_of_any_true es f m hany, keys_map_replace]
    exact h
  | false =>
    have hf : f ∉ es.map Prod.fst := by
      intro hmem
      rw [← anyKey_iff] at hmem
      rw [hany] at hmem
      exact Bool.noConfusion hmem
    rw [setErr_of_any_false es f m hany, List.map_append]
    refine List.Nodup.append h (List.nodup_singleton f) ?_
    intro x hx hmem
    rw [List.map_singleton, List.mem_singleton] at hmem
    subst hmem
    exact hf hx

theorem map_replace_no_key (f m : String) :
    ∀ es : List (String × String), es.any (fun p => p.1 == f) = false →
    es.map (fun p => if p.1 == f then (f, m) else p) = es := by
  intro es
  induction es with
  | nil => intro _; rfl
  | cons p rest ih =>
    intro h
    cases hp : p.1 == f with
    | true =>
      rw [List.any_cons, hp, Bool.true_or] at h
      exact Bool.noConfusion h
    | false =>
      rw [List.any_cons, hp, Bool.false_or] at h
      rw [List.map_cons, if_neg (by simp [hp]), ih h]

theorem map_replace_twice (f m1 m2 : String) :
    ∀ es : List (String × String),
    (es.map (fun p => if p.1 == f then (f, m1) else p)).map
        (fun p => if p.1 == f then (f, m2) else p)
      = es.map (fun p => if p.1 == f then (f, m2) else p) := by
  intro es
  induction es with
  | nil => rfl
  | cons p rest ih =>
    cases hp : p.1 == f with
    | true =>
      rw [List.map_cons, if_pos hp, List.map_cons, ih, List.map_cons,
        if_pos hp]
      simp
    | false =>
      rw [List.map_cons, if_neg (by simp [hp]), List.map_cons, ih,
        List.map_cons, if_neg (by simp [hp])]

theorem setErr_setErr (es : List (String × String)) (f m1 m2 : String) :
    setErr (setErr es f m1) f m2 = setErr es f m2 := by
  cases hany : es.any (fun p => p.1 == f) with
  | true =>
    rw [setErr_of_any_true es f m1 hany]
    have hany1 : (es.map (fun p => if p.1 == f then (f, m1) else p)).any
        (fun p => p.1 == f) = true := by
      rw [anyKey_iff, keys_map_replace]
      exact (anyKey_iff es f).mp hany
    rw [setErr_of_any_true _ f m2 hany1, setErr_of_any_true es f m2 hany]
    exact map_replace_twice f m1 m2 es
  | false =>
    rw [setErr_of_any_false es f m1 hany]
    have hany1 : (es ++ [(f, m1)]).any (fun p => p.1 == f) = true := by
      rw [anyKey_iff]
      simp
    rw [setErr_of_any_true _ f m2 hany1, setErr_of_any_false es f m2 hany,
      List.map_append, map_replace_no_key f m2 es hany]
    simp

end ErrMapLemmas

section ValidatorLemmas

theorem runRules_errors (nv : NormalizedValue) (field : String)
    (rs : List Rule) : ∀ v : ValidationResult,
    (runRules nv field rs v).errors
      = match specLastFailingMessage nv rs with
        | none => v.errors
        | some m => setErr v.errors field m := by
  induction rs with
  | nil => intro v; rfl
  | cons rule rest ih =>
    intro v
    cases hp : (rule nv).pass with
    | true =>
      have h1 : runRules nv field (rule :: rest) v
          = runRules nv field rest v := by
        simp [runRules, hp]
      rw [h1, ih]
      cases hrest : specLastFailingMessage nv rest <;>
        simp [specLastFailingMessage, hrest, hp]
    | false =>
      have h1 : runRules nv field (rule :: rest) v
          = runRules nv field rest
              { valid := false,
                errors := setErr v.errors field (rule nv).message } := by
        simp [runRules, hp]
      rw [h1, ih]
      cases hrest : specLastFailingMessage nv rest <;>
        simp [specLastFailingMessage, hrest, hp, setErr_setErr]

theorem runRules_valid (nv : NormalizedValue) (field : String)
    (rs : List Rule) : ∀ v : ValidationResult,
    (runRules nv field rs v).valid
      = (v.valid && rs.all (fun r => (r nv).pass)) := by
  induction rs with
  | nil => intro v; simp [runRules]
  | cons rule rest ih =>
    intro v
    cases hp : (rule nv).pass with
    | true => simp [runRules, hp, ih, List.all_cons]
    | false => simp [runRules, hp, ih, List.all_cons]

theorem runRules_lookup_other (nv : NormalizedValue) (field : String)
    (rs : List Rule) (g : String) (hg : g ≠ field) (v : ValidationResult) :
    lookupErr (runRules nv field rs v).errors g = lookupErr v.errors g := by
  rw [runRules_errors]
  cases hrest : specLastFailingMessage nv rs with
  | none => rfl
  | some m => exact lookupErr_setErr_other v.errors field m g (Ne.symm hg)

theorem runRules_nodup (nv : NormalizedValue) (field : String)
    (rs : List Rule) (v : ValidationResult)
    (h : (v.errors.map Prod.fst).Nodup) :
    ((runRules nv field rs v).errors.map Prod.fst).Nodup := by
  rw [runRules_errors]
  cases hrest : specLastFailingMessage nv rs with
  | none => exact h
  | some m => exact nodup_setErr v.errors field m h

theorem specLastFailingMessage_some (nv : NormalizedValue) :
    ∀ (rs : List Rule) (m : String), specLastFailingMessage nv rs = some m →
    ∃ r ∈ rs, (r nv).pass = false ∧ (r nv).message = m := by
  intro rs
  induction rs with
  | nil => intro m h; exact Option.noConfusion h
  | cons rule rest ih =>
    intro m h
    rw [specLastFailingMessage] at h
    cases hrest : specLastFailingMessage nv rest with
    | some m0 =>
      rw [hrest] at h
      obtain ⟨r, hr, h1, h2⟩ := ih m0 hrest
      refine ⟨r, List.mem_cons_of_mem rule hr, h1, ?_⟩
      rw [h2]
      exact Option.some.inj h
    | none =>
      rw [hrest] at h
      cases hp : (rule nv).pass with
      | true => rw [hp] at h; simp at h
      | false =>
        rw [hp] at h
        simp at h
        exact ⟨rule, List.mem_cons_self rule rest, hp, h⟩

theorem validateGo_lookup_notmem (browser : Bool)
    (data : List (String × Value)) (f : String) :
    ∀ rules : List (String × List Rule), f ∉ rules.map Prod.fst →
    ∀ v : ValidationResult,
    lookupErr (validateGo browser data rules v).errors f
      = lookupErr v.errors f := by
  intro rules
  induction rules with
  | nil => intro _ v; rfl
  | cons hd rest ih =>
    intro hf v
    obtain ⟨g, gs⟩ := hd
    have hg : g ≠ f := by
      intro h
      exact hf (by simp [h])
    have hf1 : f ∉ rest.map Prod.fst := by
      intro h
      exact hf (by simp [h])
    show lookupErr (validateGo browser data rest
      (runRules (normalizeValue browser (dataLookup data g)) g gs v)).errors f
        = _
    rw [ih hf1, runRules_lookup_other _ g gs f (Ne.symm hg)]

theorem validateGo_lookup_mem (browser : Bool)
    (data : List (String × Value)) (f : String) (rs : List Rule) :
    ∀ rules : List (String × List Rule), (rules.map Prod.fst).Nodup →
    (f, rs) ∈ rules → ∀ v : ValidationResult,
    lookupErr (validateGo browser data rules v).errors f
      = match specLastFailingMessage
          (normalizeValue browser (dataLookup data f)) rs with
        | none => lookupErr v.errors f
        | some m => some m := by
  intro rules
  induction rules with
  | nil => intro _ hmem; exact absurd hmem (List.not_mem_nil _)
  | cons hd rest ih =>
    intro hnd hmem v
    obtain ⟨g, gs⟩ := hd
    have hgrest : g ∉ rest.map Prod.fst := by
      rw [List.map_cons, List.nodup_cons] at hnd
      exact hnd.1
    have hndrest : (rest.map Prod.fst).Nodup := by
      rw [List.map_cons, List.nodup_cons] at hnd
      exact hnd.2
    rcases List.mem_cons.mp hmem with heq | hmem1
    · injection heq with h1 h2
      subst h1
      subst h2
      show lookupErr (validateGo browser data rest
        (runRules (normalizeValue browser (dataLookup data f)) f rs
          v)).errors f = _
      rw [validateGo_lookup_notmem browser data f rest hgrest]
      rw [runRules_errors]
      cases hlast : specLastFailingMessage
          (normalizeValue browser (dataLookup data f)) rs with
      | none => rfl
      | some m => exact lookupErr_setErr_same v.errors f m
    · have hg : g ≠ f := by
        intro h
        subst h
        exact hgrest (List.mem_map_of_mem Prod.fst hmem1)
      show lookupErr (validateGo browser data rest
        (runRules (normalizeValue browser (dataLookup data g)) g gs
          v)).errors f = _
      rw [ih hndrest hmem1]
      cases hlast : specLastFailingMessage
          (normalizeValue browser (dataLookup data f)) rs with
      | none => exact runRules_lookup_other _ g gs f (Ne.symm hg) v
      | some m => rfl

theorem validateGo_valid (browser : Bool) (data : List (String × Value)) :
    ∀ rules : List (String × List Rule), ∀ v : ValidationResult,
    (validateGo browser data rules v).valid
      = (v.valid && rules.all (fun fr => fr.2.all
          (fun r => (r (normalizeValue browser
            (dataLookup data fr.1))).pass))) := by
  intro rules
  induction rules with
  | nil => intro v; simp [validateGo]
  | cons hd rest ih =>
    intro v
    obtain ⟨g, gs⟩ := hd
    show (validateGo browser data rest
      (runRules (normalizeValue browser (dataLookup data g)) g gs v)).valid
        = _
    rw [ih, runRules_valid]
    simp [List.all_cons, Bool.and_assoc]

theorem validateGo_nodup (browser : Bool) (data : List (String × Value)) :
    ∀ rules : List (String × List Rule), ∀ v : ValidationResult,
    (v.errors.map Prod.fst).Nodup →
    ((validateGo browser data rules v).errors.map Prod.fst).Nodup := by
  intro rules
  induction rules with
  | nil => intro v h; exact h
  | cons hd rest ih =>
    intro v h
    obtain ⟨g, gs⟩ := hd
    exact ih _ (runRules_nodup _ g gs v h)

end ValidatorLemmas

/-- Claim C1: `validate` runs every rule declared for a field on that
field's normalized value without short-circuiting, so when several rules
for a field fail, the message stored in `errors` for that field is the
message of the last failing rule in declaration order
(`specLastFailingMessage`, which follows the spec's words), and `errors`
holds at most one message per field (its keys are duplicate-free). -/
theorem claim1_last_failing_rule_message_wins (browser : Bool)
    (data : List (String × Value)) (rules : List (String × List Rule))
    (hnd : (rules.map Prod.fst).Nodup) (field : String) (rs : List Rule)
    (hmem : (field, rs) ∈ rules) :
    lookupErr (validate browser data rules).errors field
      = specLastFailingMessage
          (normalizeValue browser (dataLookup data field)) rs
    ∧ ((validate browser data rules).errors.map Prod.fst).Nodup := by
  constructor
  · have h := validateGo_lookup_mem browser data field rs rules hnd hmem
      { errors := [], valid := true }
    show lookupErr (validateGo browser data rules
      { errors := [], valid := true }).errors field = _
    rw [h]
    cases hlast : specLastFailingMessage
        (normalizeValue browser (dataLookup data field)) rs with
    | none => rfl
    | some m => rfl
  · exact validateGo_nodup browser data rules
      { errors := [], valid := true } List.nodup_nil

/-- Witness for claim C1: two failing rules for the same field; the second
rule's message is the one recorded. -/
theorem claim1_last_failing_rule_message_wins_witness :
    (([("a", [fun _ => ⟨false, "m1"⟩, fun _ => ⟨false, "m2"⟩])] :
        List (String × List Rule)).map Prod.fst).Nodup
    ∧ lookupErr (validate true []
        [("a", [fun _ => ⟨false, "m1"⟩, fun _ => ⟨false, "m2"⟩])]).errors "a"
      = some "m2" := by
  refine ⟨by simp, ?_⟩
  have h := (claim1_last_failing_rule_message_wins true []
    [("a", [fun _ => ⟨false, "m1"⟩, fun _ => ⟨false, "m2"⟩])] (by simp)
    "a" [fun _ => ⟨false, "m1"⟩, fun _ => ⟨false, "m2"⟩]
    (List.mem_singleton.mpr rfl)).1
  exact h.trans rfl

/-- Claim C2: `validate` checks exactly the fields declared in the
rule-set: an undeclared field never appears in `errors`; every field with
a recorded error is declared and has at least one failing rule on its
normalized value; `valid` is true iff no declared field has a failing
rule; and a field absent from `data` is normalized from `undefined`
input, yielding the `"nullish"` tag with value `null`. -/
theorem claim2_declared_fields_only (browser : Bool)
    (data : List (String × Value)) (rules : List (String × List Rule))
    (hnd : (rules.map Prod.fst).Nodup) (field : String) :
    (field ∉ rules.map Prod.fst →
        lookupErr (validate browser data rules).errors field = none)
    ∧ (∀ m, lookupErr (validate browser data rules).errors field = some m →
        ∃ rs, (field, rs) ∈ rules ∧ ∃ r ∈ rs,
          (r (normalizeValue browser (dataLookup data field))).pass = false)
    ∧ ((validate browser data rules).valid = true ↔
        ∀ fr ∈ rules, ∀ r ∈ fr.2,
          (r (normalizeValue browser (dataLookup data fr.1))).pass = true)
    ∧ (field ∉ data.map Prod.fst →
        normalizeValue browser (dataLookup data field)
          = ⟨"nullish", .null⟩) := by
  refine ⟨?_, ?_, ?_, ?_⟩
  · intro hf
    exact validateGo_lookup_notmem browser data field rules hf
      { errors := [], valid := true }
  · intro m hm
    have hm1 : lookupErr (validateGo browser data rules
        { errors := [], valid := true }).errors field = some m := hm
    have hfmem : field ∈ rules.map Prod.fst := by
      by_contra hf
      rw [validateGo_lookup_notmem browser data field rules hf
        { errors := [], valid := true }] at hm1
      exact Option.noConfusion hm1
    obtain ⟨pr, hpr, hfst⟩ := List.mem_map.mp hfmem
    obtain ⟨g, gs⟩ := pr
    have hgf : g = field := hfst
    subst hgf
    have h := validateGo_lookup_mem browser data g gs rules hnd hpr
      { errors := [], valid := true }
    rw [h] at hm1
    cases hlast : specLastFailingMessage
        (normalizeValue browser (dataLookup data g)) gs with
    | none =>
      rw [hlast] at hm1
      exact Option.noConfusion hm1
    | some m0 =>
      obtain ⟨r, hr, h1, _⟩ := specLastFailingMessage_some _ gs m0 hlast
      exact ⟨gs, hpr, r, hr, h1⟩
  · rw [show (validate browser data rules).valid
        = (validateGo browser data rules
            { errors := [], valid := true }).valid from rfl,
      validateGo_valid]
    simp [List.all_eq_true]
  · intro hd
    have hfind : data.find? (fun p => p.1 == field) = none := by
      rw [List.find?_eq_none]
      intro p hp
      simp only [beq_iff_eq]
      intro h
      exact hd (h ▸ List.mem_map_of_mem Prod.fst hp)
    show normalizeValue browser (dataLookup data field) = _
    unfold dataLookup
    rw [hfind]
    rfl

/-- Witness for claim C2: a field in `data` but not in `rules` gets no
error entry, `valid` reflects the declared field's failing rule, and an
absent field normalizes to `"nullish"`. -/
theorem claim2_declared_fields_only_witness :
    lookupErr (validate true [("x", Value.str "v")]
        [("a", [fun _ => ⟨false, "m"⟩])]).errors "x" = none
    ∧ normalizeValue true
        (dataLookup [("x", Value.str "v")] "a") = ⟨"nullish", .null⟩ := by
  have h := claim2_declared_fields_only true [("x", Value.str "v")]
    [("a", [fun _ => ⟨false, "m"⟩])] (by simp) "x"
  have h2 := claim2_declared_fields_only true [("x", Value.str "v")]
    [("a", [fun _ => ⟨false, "m"⟩])] (by simp) "a"
  exact ⟨h.1 (by simp), h2.2.2.2 (by simp)⟩

/-- Claim C10: with an empty rule-set — or with the rules argument
omitted, which the source defaults to the empty mapping (`validateNoRules`)
— `validate` returns `{ valid: true, errors: {} }` for every data map. -/
theorem claim10_empty_ruleset (browser : Bool)
    (data : List (String × Value)) :
    validate browser data [] = { errors := [], valid := true }
    ∧ validateNoRules browser data = { errors := [], valid := true } :=
  ⟨rfl, rfl⟩

section ExceptionLemmas

theorem runRulesE_error (nv : NormalizedValue) (field : String) :
    ∀ (rs : List RuleE) (v : ValidationResult) (r : RuleE), r ∈ rs →
    isError (r nv) = true → isError (runRulesE nv field rs v) = true := by
  intro rs
  induction rs with
  | nil => intro v r hr; exact absurd hr (List.not_mem_nil r)
  | cons rule rest ih =>
    intro v r hr he
    cases hres : rule nv with
    | error e => simp [runRulesE, hres, isError]
    | ok result =>
      rcases List.mem_cons.mp hr with heq | hr1
      · subst heq
        rw [hres] at he
        exact Bool.noConfusion he
      · simp only [runRulesE, hres]
        exact ih _ r hr1 he

theorem validateEGo_error (browser : Bool) (data : List (String × Value)) :
    ∀ (rules : List (String × List RuleE)) (v : ValidationResult)
      (field : String) (rs : List RuleE) (r : RuleE),
    (field, rs) ∈ rules → r ∈ rs →
    isError (r (normalizeValue browser (dataLookup data field))) = true →
    isError (validateEGo browser data rules v) = true := by
  intro rules
  induction rules with
  | nil => intro v field rs r hmem; exact absurd hmem (List.not_mem_nil _)
  | cons hd rest ih =>
    intro v field rs r hmem hr he
    obtain ⟨g, gs⟩ := hd
    rcases List.mem_cons.mp hmem with heq | hmem1
    · injection heq with h1 h2
      subst h1
      subst h2
      have herr := runRulesE_error
        (normalizeValue browser (dataLookup data field)) field rs v r hr he
      cases hrun : runRulesE
          (normalizeValue browser (dataLookup data field)) field rs v with
      | error e => simp [validateEGo, hrun, isError]
      | ok v1 =>
        rw [hrun] at herr
        exact Bool.noConfusion herr
    · cases hrun : runRulesE
          (normalizeValue browser (dataLookup data g)) g gs v with
      | error e => simp [validateEGo, hrun, isError]
      | ok v1 =>
        simp only [validateEGo, hrun]
        exact ih v1 field rs r hmem1 hr he

theorem runNamedRules_error_shape (registry : List (String × Factory))
    (nv : NormalizedValue) (field : String) :
    ∀ (nrs : List (String × String)) (v : ValidationResult) (e : JsError),
    runNamedRules registry nv field nrs v = .error e →
    ∃ n, e = .ruleNotFound n := by
  intro nrs
  induction nrs with
  | nil => intro v e h; exact Except.noConfusion h
  | cons hd rest ih =>
    intro v e h
    obtain ⟨name0, msg0⟩ := hd
    cases hfind : registry.find? (fun p => p.1 == name0) with
    | none =>
      rw [runNamedRules] at h
      rw [show registryGet registry name0
          = .error (.ruleNotFound name0) from by
        unfold registryGet; rw [hfind]] at h
      exact ⟨name0, (Except.error.inj h).symm⟩
    | some pr =>
      rw [runNamedRules] at h
      rw [show registryGet registry name0 = .ok pr.2 from by
        unfold registryGet; rw [hfind]] at h
      exact ih _ e h

theorem runNamedRules_notfound (registry : List (String × Factory))
    (nv : NormalizedValue) (field : String) :
    ∀ (nrs : List (String × String)) (v : ValidationResult)
      (name msg : String), (name, msg) ∈ nrs →
    registry.find? (fun p => p.1 == name) = none →
    ∃ n, runNamedRules registry nv field nrs v
      = .error (.ruleNotFound n) := by
  intro nrs
  induction nrs with
  | nil => intro v name msg hmem; exact absurd hmem (List.not_mem_nil _)
  | cons hd rest ih =>
    intro v name msg hmem hfind
    obtain ⟨name0, msg0⟩ := hd
    cases hfind0 : registry.find? (fun p => p.1 == name0) with
    | none =>
      refine ⟨name0, ?_⟩
      rw [runNamedRules]
      rw [show registryGet registry name0
          = .error (.ruleNotFound name0) from by
        unfold registryGet; rw [hfind0]]
    | some pr =>
      rcases List.mem_cons.mp hmem with heq | hmem1
      · injection heq with h1 h2
        subst h1
        rw [hfind] at hfind0
        exact Option.noConfusion hfind0
      · rw [runNamedRules]
        rw [show registryGet registry name0 = .ok pr.2 from by
          unfold registryGet; rw [hfind0]]
        exact ih _ name msg hmem1 hfind

theorem validateNamedGo_notfound (registry : List (String × Factory))
    (browser : Bool) (data : List (String × Value)) :
    ∀ (rules : List (String × List (String × String)))
      (v : ValidationResult) (field : String)
      (nrs : List (String × String)) (name msg : String),
    (field, nrs) ∈ rules → (name, msg) ∈ nrs →
    registry.find? (fun p => p.1 == name) = none →
    ∃ n, validateNamedGo registry browser data rules v
      = .error (.ruleNotFound n) := by
  intro rules
  induction rules with
  | nil => intro v field nrs name msg hmem; exact absurd hmem (List.not_mem_nil _)
  | cons hd rest ih =>
    intro v field nrs name msg hmem hn hfind
    obtain ⟨g, gs⟩ := hd
    rcases List.mem_cons.mp hmem with heq | hmem1
    · injection heq with h1 h2
      subst h1
      subst h2
      obtain ⟨n, hn2⟩ := runNamedRules_notfound registry
        (normalizeValue browser (dataLookup data field)) field nrs v
        name msg hn hfind
      refine ⟨n, ?_⟩
      rw [validateNamedGo, hn2]
    · cases hrun : runNamedRules registry
          (normalizeValue browser (dataLookup data g)) g gs v with
      | error e =>
        obtain ⟨n, hn2⟩ := runNamedRules_error_shape registry
          (normalizeValue browser (dataLookup data g)) g gs v e hrun
        refine ⟨n, ?_⟩
        rw [validateNamedGo, hrun, hn2]
      | ok v1 =>
        rw [validateNamedGo, hrun]
        exact ih v1 field nrs name msg hmem1 hn hfind

end ExceptionLemmas

/-- Claim C8: when a rule evaluator invoked during `validate` throws, the
exception propagates to the caller: the exception-aware embedding
`validateE` (the source has no try/catch) ends in an error and never
returns a `ValidationResult`. -/
theorem claim8_rule_exception_propagates (browser : Bool)
    (data : List (String × Value)) (rules : List (String × List RuleE))
    (field : String) (rs : List RuleE) (rule : RuleE)
    (hf : (field, rs) ∈ rules) (hr : rule ∈ rs)
    (he : isError (rule (normalizeValue browser
      (dataLookup data field))) = true) :
    isError (validateE browser data rules) = true
    ∧ ∀ res, validateE browser data rules ≠ Except.ok res := by
  have h : isError (validateE browser data rules) = true :=
    validateEGo_error browser data rules { errors := [], valid := true }
      field rs rule hf hr he
  refine ⟨h, ?_⟩
  intro res hok
  rw [hok] at h
  exact Bool.noConfusion h

/-- Witness for claim C8: one rule that throws; `validate` yields no
result. -/
theorem claim8_rule_exception_propagates_witness :
    isError (validateE true []
      [("a", [fun _ => Except.error (JsError.thrown "boom")])]) = true
    ∧ ∀ res, validateE true []
        [("a", [fun _ => Except.error (JsError.thrown "boom")])]
      ≠ Except.ok res :=
  claim8_rule_exception_propagates true []
    [("a", [fun _ => Except.error (JsError.thrown "boom")])] "a"
    [fun _ => Except.error (JsError.thrown "boom")]
    (fun _ => Except.error (JsError.thrown "boom"))
    (List.mem_singleton.mpr rfl) (List.mem_singleton.mpr rfl) rfl

/-- Claim C9: using an unregistered rule name in a rule-set raises
`RuleNotFound`, surfaced at the point the rule is invoked rather than
silently skipped, and before any result is reported: validation ends in a
`ruleNotFound` error and never returns a `ValidationResult`. -/
theorem claim9_rule_not_found (registry : List (String × Factory))
    (browser : Bool) (data : List (String × Value))
    (rules : List (String × List (String × String)))
    (field : String) (nrs : List (String × String)) (name msg : String)
    (hf : (field, nrs) ∈ rules) (hn : (name, msg) ∈ nrs)
    (hreg : registry.find? (fun p => p.1 == name) = none) :
    (∃ n, validateNamed registry browser data rules
        = Except.error (JsError.ruleNotFound n))
    ∧ ∀ res, validateNamed registry browser data rules ≠ Except.ok res := by
  obtain ⟨n, hn2⟩ := validateNamedGo_notfound registry browser data rules
    { errors := [], valid := true } field nrs name msg hf hn hreg
  have hval : validateNamed registry browser data rules
      = Except.error (JsError.ruleNotFound n) := hn2
  refine ⟨⟨n, hval⟩, ?_⟩
  intro res hok
  exact Except.noConfusion (hval.symm.trans hok)

/-- Witness for claim C9: an empty registry and a rule-set naming the
unregistered rule `"required"`. -/
theorem claim9_rule_not_found_witness :
    ([] : List (String × Factory)).find? (fun p => p.1 == "required") = none
    ∧ ∃ n, validateNamed [] true []
        [("email", [("required", "Email is required")])]
      = Except.error (JsError.ruleNotFound n) :=
  ⟨rfl, (claim9_rule_not_found [] true []
    [("email", [("required", "Email is required")])] "email"
    [("required", "Email is required")] "required" "Email is required"
    (List.mem_singleton.mpr rfl) (List.mem_singleton.mpr rfl) rfl).1⟩

end UseModel
